import Mathlib

/-!
Verification of `sphere_transforms.py` (Möbius transformations of
equirectangular images).  The Python source is embedded shallowly:
integer pixel manipulation is translated to functions on `ℤ`, and the
floating point geometry pipeline is translated to exact arithmetic over
`ℝ` and `ℂ`.  The generic 2×2 complex matrix and 3-vector primitives
live in an external module (`vectors_and_matrices`); they are modelled
from the specification's description of those collaborators.
-/

namespace SphereTransforms

/-! ## Integer pixel utilities -/

/-- `clamp(pt, x_size)`: wrap `pt[0]` modulo `x_size`, pin `pt[1]` into
`[0, y_size-1]` where `y_size = x_size/2` (integer division).  Python's
`%` on a positive modulus agrees with `Int.emod`. -/
def clamp (pt : ℤ × ℤ) (x_size : ℤ) : ℤ × ℤ :=
  let y_size := x_size / 2
  (pt.1 % x_size,
    if pt.2 < 0 then 0 else if pt.2 > y_size - 1 then y_size - 1 else pt.2)

/-- `rotate_equirect_image(image, from_x, to_x)` at the level of columns: the
source image is split at seam distance `dist = |from_x - to_x|`, the right
slice is pasted at column 0 and the left slice after it.  `im c r` is the
colour of the input image at column `c`, row `r`; the result gives the output
image's columns. -/
def rotate_equirect_image (im : ℤ → ℤ → ℤ × ℤ × ℤ) (W from_x to_x : ℤ) :
    ℤ → ℤ → ℤ × ℤ × ℤ :=
  let dist := |from_x - to_x|
  if from_x < to_x then
    -- left = columns [0, W-dist), right = columns [W-dist, W)
    fun j => if j < dist then im (W - dist + j) else im (j - dist)
  else
    -- left = columns [0, dist), right = columns [dist, W)
    fun j => if j < W - dist then im (dist + j) else im (j - (W - dist))

/-! ## C6 : clamp wraparound and pinning -/

/-- **C6.**  For a positive width `x_size` (with `y_size = x_size/2`):
`clamp` identifies `x_size + 5` with `5` in the x-coordinate for every
in-range `y`; a `y` of `-1` is pinned to `0`; and a `y` of `y_size` is pinned
to `y_size - 1`. -/
theorem claim_C6_clamp_wrap_and_pin (x_size x y : ℤ) (hx : 0 < x_size)
    (hy0 : 0 ≤ y) (hy1 : y ≤ x_size / 2 - 1) :
    clamp (x_size + 5, y) x_size = clamp (5, y) x_size ∧
    (clamp (x, -1) x_size).2 = 0 ∧
    (clamp (x, x_size / 2) x_size).2 = x_size / 2 - 1 := by
  refine ⟨?_, ?_, ?_⟩
  · unfold clamp
    simp only [Prod.mk.injEq]
    refine ⟨?_, trivial⟩
    rw [show x_size + 5 = 5 + x_size * 1 by ring, Int.add_mul_emod_self_left]
  · unfold clamp
    norm_num
  · unfold clamp
    simp only
    rw [if_neg (by omega), if_pos (by omega)]

/-- Witness for C6 at `x_size = 10`, `x = 7`, `y = 3`. -/
theorem claim_C6_witness :
    clamp (10 + 5, 3) 10 = clamp (5, 3) 10 ∧
    (clamp (7, -1) 10).2 = 0 ∧
    (clamp (7, 10 / 2) 10).2 = 10 / 2 - 1 :=
  claim_C6_clamp_wrap_and_pin 10 7 3 (by decide) (by decide) (by decide)

/-! ## C9 : longitude rotation by crop/concatenate -/

/-- **C9.**  `rotate_equirect_image` with `from_x = 400`, `to_x = 100` on an
image of width `W ≥ 300` places input column `x` at output column
`(x - 300) % W`, for every in-range column `x` (and every row, since columns
are equal as functions on rows). -/
theorem claim_C9_rotate_columns (im : ℤ → ℤ → ℤ × ℤ × ℤ) (W x : ℤ)
    (hW : 300 ≤ W) (hx0 : 0 ≤ x) (hx1 : x < W) :
    rotate_equirect_image im W 400 100 ((x - 300) % W) = im x := by
  have hd : |(400 : ℤ) - 100| = 300 := by decide
  simp only [rotate_equirect_image, hd]
  rw [if_neg (by decide)]
  rcases le_or_lt 300 x with h | h
  · have hm : (x - 300) % W = x - 300 := Int.emod_eq_of_lt (by omega) (by omega)
    rw [hm, if_pos (show x - 300 < W - 300 by omega),
      show 300 + (x - 300) = x by omega]
  · have hm : (x - 300) % W = x - 300 + W := by
      have h2 : (x - 300 + W) % W = x - 300 + W :=
        Int.emod_eq_of_lt (by omega) (by omega)
      calc (x - 300) % W = (x - 300 + W * 1) % W := by
            rw [Int.add_mul_emod_self_left]
        _ = x - 300 + W := by rw [mul_one, h2]
    rw [hm, if_neg (show ¬(x - 300 + W < W - 300) by omega),
      show x - 300 + W - (W - 300) = x by omega]

/-- Witness for C9: a concrete image of width 720, column 10. -/
theorem claim_C9_witness :
    rotate_equirect_image (fun c _ => (c, c + 1, c + 2)) 720 400 100
      ((10 - 300) % 720) = (fun c _ => ((c : ℤ), c + 1, c + 2)) 10 :=
  claim_C9_rotate_columns (fun c _ => (c, c + 1, c + 2)) 720 10
    (by decide) (by decide) (by decide)

/-! ## Pixel sampling

The Python pipeline hands `get_interpolated_pixel_colour` real-valued
coordinates; colours are integer RGB triples.  `int(round(coord))` is
Python 2's `round`: nearest integer, ties away from zero. -/

noncomputable section

/-- `int(round(x))` in Python 2: round to nearest, ties away from zero. -/
def pyround (x : ℝ) : ℤ :=
  if 0 ≤ x then ⌊x + 1 / 2⌋ else -⌊-x + 1 / 2⌋

/-- `get_pixel_colour(pt, s_im, x_size)`: clamp the integer point, then read
the source image. -/
def get_pixel_colour (pt : ℤ × ℤ) (s_im : ℤ → ℤ → ℤ × ℤ × ℤ) (x_size : ℤ) :
    ℤ × ℤ × ℤ :=
  let c := clamp pt x_size
  s_im c.1 c.2

/-- `get_interpolated_pixel_colour(pt, s_im, x_size)`: bilinear interpolation
of the four pixels around `pt`, each fetched through `get_pixel_colour`
(hence through `clamp`), rounded back to integer channels. -/
def get_interpolated_pixel_colour (pt : ℝ × ℝ) (s_im : ℤ → ℤ → ℤ × ℤ × ℤ)
    (x_size : ℤ) : ℤ × ℤ × ℤ :=
  let x : ℤ := ⌊pt.1⌋
  let y : ℤ := ⌊pt.2⌋
  let f : ℝ := pt.1 - x
  let g : ℝ := pt.2 - y
  let c00 := get_pixel_colour (x, y) s_im x_size
  let c01 := get_pixel_colour (x, y + 1) s_im x_size
  let c10 := get_pixel_colour (x + 1, y) s_im x_size
  let c11 := get_pixel_colour (x + 1, y + 1) s_im x_size
  let mix : ℤ → ℤ → ℤ → ℤ → ℝ := fun a b c d =>
    (1 - f) * ((1 - g) * (a : ℝ) + g * (b : ℝ)) +
      f * ((1 - g) * (c : ℝ) + g * (d : ℝ))
  (pyround (mix c00.1 c01.1 c10.1 c11.1),
   pyround (mix c00.2.1 c01.2.1 c10.2.1 c11.2.1),
   pyround (mix c00.2.2 c01.2.2 c10.2.2 c11.2.2))

/-- The clamped point always lies in the valid index rectangle
`[0, x_size) × [0, x_size/2 - 1]` once the image has at least one row. -/
lemma clamp_mem_bounds (pt : ℤ × ℤ) (x_size : ℤ) (h : 2 ≤ x_size) :
    0 ≤ (clamp pt x_size).1 ∧ (clamp pt x_size).1 < x_size ∧
    0 ≤ (clamp pt x_size).2 ∧ (clamp pt x_size).2 ≤ x_size / 2 - 1 := by
  unfold clamp
  refine ⟨Int.emod_nonneg _ (by omega), Int.emod_lt_of_pos _ (by omega), ?_, ?_⟩
  · simp only
    split_ifs <;> omega
  · simp only
    split_ifs <;> omega

/-! ## C8 : all pixel fetches are clamped into bounds -/

/-- **C8.**  Every fetch of `get_pixel_colour` / `get_interpolated_pixel_colour`
goes through `clamp`, whose output lies in `[0, x_size) × [0, x_size/2 - 1]`;
consequently two source images agreeing on that rectangle give identical
results for every (arbitrarily out-of-range) input point. -/
theorem claim_C8_fetches_clamped (x_size : ℤ) (pti : ℤ × ℤ) (pt : ℝ × ℝ)
    (im im2 : ℤ → ℤ → ℤ × ℤ × ℤ) (hx : 2 ≤ x_size)
    (hagree : ∀ a b : ℤ, 0 ≤ a → a < x_size → 0 ≤ b → b ≤ x_size / 2 - 1 →
      im a b = im2 a b) :
    (0 ≤ (clamp pti x_size).1 ∧ (clamp pti x_size).1 < x_size ∧
      0 ≤ (clamp pti x_size).2 ∧ (clamp pti x_size).2 ≤ x_size / 2 - 1) ∧
    get_pixel_colour pti im x_size = get_pixel_colour pti im2 x_size ∧
    get_interpolated_pixel_colour pt im x_size =
      get_interpolated_pixel_colour pt im2 x_size := by
  have hgp : ∀ q : ℤ × ℤ,
      get_pixel_colour q im x_size = get_pixel_colour q im2 x_size := by
    intro q
    obtain ⟨h1, h2, h3, h4⟩ := clamp_mem_bounds q x_size hx
    unfold get_pixel_colour
    exact hagree _ _ h1 h2 h3 h4
  refine ⟨clamp_mem_bounds pti x_size hx, hgp pti, ?_⟩
  unfold get_interpolated_pixel_colour
  simp only [hgp]

/-- Witness for C8: width 4, an image agreeing with a second one only on
`[0,4) × [0,1]`, and out-of-range sample points. -/
theorem claim_C8_witness :
    ((0 ≤ (clamp (100, -5) 4).1 ∧ (clamp (100, -5) 4).1 < 4 ∧
      0 ≤ (clamp (100, -5) 4).2 ∧ (clamp (100, -5) 4).2 ≤ 4 / 2 - 1) ∧
    get_pixel_colour (100, -5) (fun _ _ => (1, 2, 3)) 4 =
      get_pixel_colour (100, -5)
        (fun a b => if 0 ≤ a ∧ a < 4 ∧ 0 ≤ b ∧ b ≤ 4 / 2 - 1
          then (1, 2, 3) else (9, 9, 9)) 4 ∧
    get_interpolated_pixel_colour (0, 0) (fun _ _ => (1, 2, 3)) 4 =
      get_interpolated_pixel_colour (0, 0)
        (fun a b => if 0 ≤ a ∧ a < 4 ∧ 0 ≤ b ∧ b ≤ 4 / 2 - 1
          then (1, 2, 3) else (9, 9, 9)) 4) :=
  claim_C8_fetches_clamped 4 (100, -5) (0, 0) (fun _ _ => (1, 2, 3))
    (fun a b => if 0 ≤ a ∧ a < 4 ∧ 0 ≤ b ∧ b ≤ 4 / 2 - 1
      then (1, 2, 3) else (9, 9, 9))
    (by decide)
    (fun a b h1 h2 h3 h4 => (if_pos ⟨h1, h2, h3, h4⟩).symm)

/-! ## C10 : interpolated colours stay in the colour cube -/

/-- A convex mix of two channel values in `[0,255]` stays in `[0,255]`. -/
lemma lin_mix_mem {t a b : ℝ} (ht0 : 0 ≤ t) (ht1 : t ≤ 1)
    (ha0 : 0 ≤ a) (ha1 : a ≤ 255) (hb0 : 0 ≤ b) (hb1 : b ≤ 255) :
    0 ≤ (1 - t) * a + t * b ∧ (1 - t) * a + t * b ≤ 255 := by
  constructor <;> nlinarith

/-- Rounding keeps `[0,255]` values in `[0,255]`. -/
lemma pyround_mem {v : ℝ} (h0 : 0 ≤ v) (h1 : v ≤ 255) :
    0 ≤ pyround v ∧ pyround v ≤ 255 := by
  unfold pyround
  rw [if_pos h0]
  constructor
  · exact Int.le_floor.mpr (by push_cast; linarith)
  · have : ⌊v + 1 / 2⌋ < 256 := Int.floor_lt.mpr (by push_cast; linarith)
    omega

/-- The rounded bilinear mix of four in-range channels is in range. -/
lemma mix_round_mem {f g : ℝ} (hf0 : 0 ≤ f) (hf1 : f < 1)
    (hg0 : 0 ≤ g) (hg1 : g < 1) {a b c d : ℤ}
    (ha : 0 ≤ a ∧ a ≤ 255) (hb : 0 ≤ b ∧ b ≤ 255)
    (hc : 0 ≤ c ∧ c ≤ 255) (hd : 0 ≤ d ∧ d ≤ 255) :
    0 ≤ pyround ((1 - f) * ((1 - g) * (a : ℝ) + g * (b : ℝ)) +
        f * ((1 - g) * (c : ℝ) + g * (d : ℝ))) ∧
      pyround ((1 - f) * ((1 - g) * (a : ℝ) + g * (b : ℝ)) +
        f * ((1 - g) * (c : ℝ) + g * (d : ℝ))) ≤ 255 := by
  have ha0 : (0 : ℝ) ≤ (a : ℝ) := by exact_mod_cast ha.1
  have ha1 : (a : ℝ) ≤ 255 := by exact_mod_cast ha.2
  have hb0 : (0 : ℝ) ≤ (b : ℝ) := by exact_mod_cast hb.1
  have hb1 : (b : ℝ) ≤ 255 := by exact_mod_cast hb.2
  have hc0 : (0 : ℝ) ≤ (c : ℝ) := by exact_mod_cast hc.1
  have hc1 : (c : ℝ) ≤ 255 := by exact_mod_cast hc.2
  have hd0 : (0 : ℝ) ≤ (d : ℝ) := by exact_mod_cast hd.1
  have hd1 : (d : ℝ) ≤ 255 := by exact_mod_cast hd.2
  obtain ⟨h1, h2⟩ := lin_mix_mem hg0 hg1.le ha0 ha1 hb0 hb1
  obtain ⟨h3, h4⟩ := lin_mix_mem hg0 hg1.le hc0 hc1 hd0 hd1
  obtain ⟨h5, h6⟩ := lin_mix_mem hf0 hf1.le h1 h2 h3 h4
  exact pyround_mem h5 h6

/-- **C10.**  If every channel of the source image lies in `[0,255]`, then
for every real input point the interpolated colour is a triple of integers
each in `[0,255]`: the bilinear weights are nonnegative and sum to one, so
the mix is a convex combination, and rounding preserves the range. -/
theorem claim_C10_interpolated_in_colour_cube (pt : ℝ × ℝ)
    (im : ℤ → ℤ → ℤ × ℤ × ℤ) (x_size : ℤ)
    (him : ∀ a b : ℤ, (0 ≤ (im a b).1 ∧ (im a b).1 ≤ 255) ∧
      (0 ≤ (im a b).2.1 ∧ (im a b).2.1 ≤ 255) ∧
      (0 ≤ (im a b).2.2 ∧ (im a b).2.2 ≤ 255)) :
    (0 ≤ (get_interpolated_pixel_colour pt im x_size).1 ∧
      (get_interpolated_pixel_colour pt im x_size).1 ≤ 255) ∧
    (0 ≤ (get_interpolated_pixel_colour pt im x_size).2.1 ∧
      (get_interpolated_pixel_colour pt im x_size).2.1 ≤ 255) ∧
    (0 ≤ (get_interpolated_pixel_colour pt im x_size).2.2 ∧
      (get_interpolated_pixel_colour pt im x_size).2.2 ≤ 255) := by
  have hch : ∀ q : ℤ × ℤ,
      (0 ≤ (get_pixel_colour q im x_size).1 ∧
        (get_pixel_colour q im x_size).1 ≤ 255) ∧
      (0 ≤ (get_pixel_colour q im x_size).2.1 ∧
        (get_pixel_colour q im x_size).2.1 ≤ 255) ∧
      (0 ≤ (get_pixel_colour q im x_size).2.2 ∧
        (get_pixel_colour q im x_size).2.2 ≤ 255) :=
    fun q => him (clamp q x_size).1 (clamp q x_size).2
  have hf0 : (0 : ℝ) ≤ pt.1 - (⌊pt.1⌋ : ℝ) := sub_nonneg.mpr (Int.floor_le pt.1)
  have hf1 : pt.1 - (⌊pt.1⌋ : ℝ) < 1 := by
    have := Int.lt_floor_add_one pt.1
    linarith
  have hg0 : (0 : ℝ) ≤ pt.2 - (⌊pt.2⌋ : ℝ) := sub_nonneg.mpr (Int.floor_le pt.2)
  have hg1 : pt.2 - (⌊pt.2⌋ : ℝ) < 1 := by
    have := Int.lt_floor_add_one pt.2
    linarith
  simp only [get_interpolated_pixel_colour]
  exact ⟨mix_round_mem hf0 hf1 hg0 hg1 (hch _).1 (hch _).1 (hch _).1
      (hch _).1,
    mix_round_mem hf0 hf1 hg0 hg1 (hch _).2.1 (hch _).2.1 (hch _).2.1
      (hch _).2.1,
    mix_round_mem hf0 hf1 hg0 hg1 (hch _).2.2 (hch _).2.2 (hch _).2.2
      (hch _).2.2⟩

/-- Witness for C10: a concrete image with channels 0, 128, 255 and a
fractional sample point. -/
theorem claim_C10_witness :
    (0 ≤ (get_interpolated_pixel_colour (1 / 2, 1 / 2)
        (fun _ _ => (0, 128, 255)) 4).1 ∧
      (get_interpolated_pixel_colour (1 / 2, 1 / 2)
        (fun _ _ => (0, 128, 255)) 4).1 ≤ 255) ∧
    (0 ≤ (get_interpolated_pixel_colour (1 / 2, 1 / 2)
        (fun _ _ => (0, 128, 255)) 4).2.1 ∧
      (get_interpolated_pixel_colour (1 / 2, 1 / 2)
        (fun _ _ => (0, 128, 255)) 4).2.1 ≤ 255) ∧
    (0 ≤ (get_interpolated_pixel_colour (1 / 2, 1 / 2)
        (fun _ _ => (0, 128, 255)) 4).2.2 ∧
      (get_interpolated_pixel_colour (1 / 2, 1 / 2)
        (fun _ _ => (0, 128, 255)) 4).2.2 ≤ 255) :=
  claim_C10_interpolated_in_colour_cube (1 / 2, 1 / 2)
    (fun _ _ => (0, 128, 255)) 4 (fun _ _ => by norm_num)

end

/-! ## Zoom compositing: the per-pixel real-part bucketing of
`generate_image` (source lines 243-261).  After the loop shift the pixel's
log-coordinate real part `re` is bucketed by
`level = floor((re + zoom_cutoff) / log(zoom_factor))` and wrapped. -/

noncomputable section

/-- Python's float `%` for a positive modulus: `a % b = a - b*floor(a/b)`. -/
def fmod (a b : ℝ) : ℝ := a - b * ⌊a / b⌋

/-- The real-part adjustment of `generate_image`: `level >= 0` leaves `re`
alone; levels `-1`, `-2`, `-3` and the final `else` branch wrap `re + cutoff`
modulo `log(zoom_factor)` and subtract the cutoff plus 0, 1, 2 or 3 copies of
`log(zoom_factor)` respectively. -/
def zoom_wrap_real (re zoom_cutoff zoom_factor : ℝ) : ℝ :=
  let lk := Real.log zoom_factor
  let recurse_value := (re + zoom_cutoff) / lk
  if (⌊recurse_value⌋ : ℝ) ≥ 0 then re
  else if (⌊recurse_value⌋ : ℝ) = -1 then
    fmod (re + zoom_cutoff) lk - zoom_cutoff
  else if (⌊recurse_value⌋ : ℝ) = -2 then
    fmod (re + zoom_cutoff) lk - zoom_cutoff - lk
  else if (⌊recurse_value⌋ : ℝ) = -3 then
    fmod (re + zoom_cutoff) lk - zoom_cutoff - lk * 2
  else
    fmod (re + zoom_cutoff) lk - zoom_cutoff - lk * 3

lemma fmod_mem {a b : ℝ} (hb : 0 < b) : 0 ≤ fmod a b ∧ fmod a b < b := by
  have hfr : fmod a b = b * Int.fract (a / b) := by
    unfold fmod Int.fract
    field_simp
  constructor
  · rw [hfr]
    exact mul_nonneg hb.le (Int.fract_nonneg _)
  · rw [hfr]
    calc b * Int.fract (a / b) < b * 1 :=
          (mul_lt_mul_left hb).mpr (Int.fract_lt_one _)
    _ = b := mul_one b

/-- **C2 (counterexample to the claim as stated).**  With `zoom_factor = e`
(`log = 1`), `zoom_cutoff = 0` and `Re(w) = -1/2` the level is `-1` and the
code leaves `Re(w)` at `1/2`, which does not lie in the fundamental interval
`[-c, log k - c)` shifted by `level*log k`, i.e. `[-1, 0)`. -/
theorem claim_C2_counterexample :
    ⌊(-(1 : ℝ) / 2 + 0) / Real.log (Real.exp 1)⌋ = -1 ∧
    zoom_wrap_real (-(1 : ℝ) / 2) 0 (Real.exp 1) = 1 / 2 ∧
    ¬(-(0 : ℝ) + (-1 : ℝ) * Real.log (Real.exp 1) ≤
        zoom_wrap_real (-(1 : ℝ) / 2) 0 (Real.exp 1) ∧
      zoom_wrap_real (-(1 : ℝ) / 2) 0 (Real.exp 1) <
        Real.log (Real.exp 1) - 0 + (-1 : ℝ) * Real.log (Real.exp 1)) := by
  have hfl : ⌊(-(1 : ℝ) / 2 + 0) / Real.log (Real.exp 1)⌋ = -1 := by
    rw [Real.log_exp]
    norm_num
  have hval : zoom_wrap_real (-(1 : ℝ) / 2) 0 (Real.exp 1) = 1 / 2 := by
    unfold zoom_wrap_real
    simp only [Real.log_exp]
    rw [if_neg (by norm_num), if_pos (by norm_num)]
    unfold fmod
    norm_num
  refine ⟨hfl, hval, ?_⟩
  rw [hval, Real.log_exp]
  intro h
  have h2 := h.2
  norm_num at h2

/-- **C2 (amended).**  With `level = floor((Re(w)+c)/log k)` after the loop
shift: `level ≥ 0` leaves `Re(w)` unchanged; for `level ∈ {-1,-2,-3}` the code
wraps `Re(w)` into the fundamental interval `[-c, log k - c)` shifted by
`(level+1)·log k`; and every `level < -3` receives the single `else`-branch
formula `((Re(w)+c) mod log k) - c - 3·log k`, identically for all such
levels (the pixel then samples image B). -/
theorem claim_C2_zoom_levels (re c k : ℝ) (hk : 1 < k) :
    (0 ≤ ⌊(re + c) / Real.log k⌋ → zoom_wrap_real re c k = re) ∧
    (∀ level : ℤ, ⌊(re + c) / Real.log k⌋ = level →
      level = -1 ∨ level = -2 ∨ level = -3 →
      -c + ((level : ℝ) + 1) * Real.log k ≤ zoom_wrap_real re c k ∧
        zoom_wrap_real re c k <
          Real.log k - c + ((level : ℝ) + 1) * Real.log k) ∧
    (⌊(re + c) / Real.log k⌋ ≤ -4 →
      zoom_wrap_real re c k =
        fmod (re + c) (Real.log k) - c - Real.log k * 3 ∧
      -c - 3 * Real.log k ≤ zoom_wrap_real re c k ∧
        zoom_wrap_real re c k < Real.log k - c - 3 * Real.log k) := by
  have hlk : 0 < Real.log k := Real.log_pos hk
  obtain ⟨hm0, hm1⟩ := fmod_mem (a := re + c) hlk
  refine ⟨?_, ?_, ?_⟩
  · intro h
    simp only [zoom_wrap_real]
    rw [if_pos (by exact_mod_cast h)]
  · rintro level hlev (rfl | rfl | rfl)
    · simp only [zoom_wrap_real]
      rw [if_neg (by rw [hlev]; norm_num), if_pos (by rw [hlev]; norm_num)]
      push_cast
      constructor <;> linarith
    · simp only [zoom_wrap_real]
      rw [if_neg (by rw [hlev]; norm_num), if_neg (by rw [hlev]; norm_num),
        if_pos (by rw [hlev]; norm_num)]
      push_cast
      constructor <;> linarith
    · simp only [zoom_wrap_real]
      rw [if_neg (by rw [hlev]; norm_num), if_neg (by rw [hlev]; norm_num),
        if_neg (by rw [hlev]; norm_num), if_pos (by rw [hlev]; norm_num)]
      push_cast
      constructor <;> linarith
  · intro h
    simp only [zoom_wrap_real]
    rw [if_neg (by intro hc; rw [ge_iff_le, show (0 : ℝ) = ((0 : ℤ) : ℝ) by
          norm_num, Int.cast_le] at hc; omega),
      if_neg (by intro hc; rw [show (-1 : ℝ) = ((-1 : ℤ) : ℝ) by norm_num,
          Int.cast_inj] at hc; omega),
      if_neg (by intro hc; rw [show (-2 : ℝ) = ((-2 : ℤ) : ℝ) by norm_num,
          Int.cast_inj] at hc; omega),
      if_neg (by intro hc; rw [show (-3 : ℝ) = ((-3 : ℤ) : ℝ) by norm_num,
          Int.cast_inj] at hc; omega)]
    refine ⟨rfl, ?_, ?_⟩ <;> linarith

/-- Witness for C2 (amended) at `re = -1/2`, `c = 0`, `k = e`. -/
theorem claim_C2_witness :
    (0 ≤ ⌊((-(1 : ℝ) / 2) + 0) / Real.log (Real.exp 1)⌋ →
      zoom_wrap_real (-(1 : ℝ) / 2) 0 (Real.exp 1) = -(1 : ℝ) / 2) ∧
    (∀ level : ℤ, ⌊((-(1 : ℝ) / 2) + 0) / Real.log (Real.exp 1)⌋ = level →
      level = -1 ∨ level = -2 ∨ level = -3 →
      -(0 : ℝ) + ((level : ℝ) + 1) * Real.log (Real.exp 1) ≤
          zoom_wrap_real (-(1 : ℝ) / 2) 0 (Real.exp 1) ∧
        zoom_wrap_real (-(1 : ℝ) / 2) 0 (Real.exp 1) <
          Real.log (Real.exp 1) - 0 +
            ((level : ℝ) + 1) * Real.log (Real.exp 1)) ∧
    (⌊((-(1 : ℝ) / 2) + 0) / Real.log (Real.exp 1)⌋ ≤ -4 →
      zoom_wrap_real (-(1 : ℝ) / 2) 0 (Real.exp 1) =
        fmod ((-(1 : ℝ) / 2) + 0) (Real.log (Real.exp 1)) - 0 -
          Real.log (Real.exp 1) * 3 ∧
      -(0 : ℝ) - 3 * Real.log (Real.exp 1) ≤
          zoom_wrap_real (-(1 : ℝ) / 2) 0 (Real.exp 1) ∧
        zoom_wrap_real (-(1 : ℝ) / 2) 0 (Real.exp 1) <
          Real.log (Real.exp 1) - 0 - 3 * Real.log (Real.exp 1)) :=
  claim_C2_zoom_levels (-(1 : ℝ) / 2) 0 (Real.exp 1)
    (by
      have h := Real.add_one_lt_exp (show (1 : ℝ) ≠ 0 by norm_num)
      linarith)

/-! ## Coordinate mapper: pixels, angles, sphere -/

/-- A point of `R^3`; the `vector` class of the external
`vectors_and_matrices` module, modelled from the spec. -/
@[ext]
structure Vec3 where
  x : ℝ
  y : ℝ
  z : ℝ

/-- `angles_from_pixel_coords(point, x_size)`: map pixel coordinates to the
`(0, 2π) × (-π/2, π/2)` rectangle.  `y_size = x_size/2` by integer
division. -/
def angles_from_pixel_coords (pt : ℝ × ℝ) (x_size : ℤ) : ℝ × ℝ :=
  let y_size : ℤ := x_size / 2
  ((pt.1 + 0.5) * 2 * Real.pi / (x_size : ℝ),
    pt.2 * Real.pi / ((y_size - 1 : ℤ) : ℝ) - 0.5 * Real.pi)

/-- `pixel_coords_from_angles(point, x_size)`: the reverse affine map. -/
def pixel_coords_from_angles (pt : ℝ × ℝ) (x_size : ℤ) : ℝ × ℝ :=
  let y_size : ℤ := x_size / 2
  (pt.1 * (x_size : ℝ) / (2 * Real.pi) - 0.5,
    (pt.2 + 0.5 * Real.pi) * ((y_size - 1 : ℤ) : ℝ) / Real.pi)

/-- `math.atan2(y, x)`, exactly: the argument of the complex number
`x + iy`, in `(-π, π]`, with `atan2 0 0 = 0`. -/
def atan2 (y x : ℝ) : ℝ := Complex.arg ⟨x, y⟩

/-- `angles_from_sphere(point)`: equirectangular projection; longitude is
normalised into `[0, 2π)`. -/
def angles_from_sphere (p : Vec3) : ℝ × ℝ :=
  let longitude0 := atan2 p.y p.x
  let longitude :=
    if longitude0 < 0 then longitude0 + 2 * Real.pi else longitude0
  let r := Real.sqrt (p.x * p.x + p.y * p.y)
  let latitude := atan2 p.z r
  (longitude, latitude)

/-- `sphere_from_angles(point)`: inverse equirectangular projection. -/
def sphere_from_angles (pt : ℝ × ℝ) : Vec3 :=
  let horiz_radius := Real.cos pt.2
  ⟨horiz_radius * Real.cos pt.1, horiz_radius * Real.sin pt.1, Real.sin pt.2⟩

/-- `sphere_from_pixel_coords(point, x_size)`. -/
def sphere_from_pixel_coords (pt : ℝ × ℝ) (x_size : ℤ) : Vec3 :=
  sphere_from_angles (angles_from_pixel_coords pt x_size)

/-- The sphere → angles → sphere round trip, for unit vectors. -/
lemma sphere_angles_roundtrip (p : Vec3)
    (hp : p.x ^ 2 + p.y ^ 2 + p.z ^ 2 = 1) :
    sphere_from_angles (angles_from_sphere p) = p := by
  have hxy0 : (0 : ℝ) ≤ p.x * p.x + p.y * p.y := by nlinarith
  have hr2 : Real.sqrt (p.x * p.x + p.y * p.y) ^ 2 = p.x * p.x + p.y * p.y :=
    Real.sq_sqrt hxy0
  have hrnn : 0 ≤ Real.sqrt (p.x * p.x + p.y * p.y) := Real.sqrt_nonneg _
  set r := Real.sqrt (p.x * p.x + p.y * p.y) with hrdef
  have habs : Complex.abs ⟨r, p.z⟩ = 1 := by
    rw [Complex.abs_apply, Complex.normSq_mk]
    rw [show r * r + p.z * p.z = 1 by nlinarith]
    exact Real.sqrt_one
  have hd : (⟨r, p.z⟩ : ℂ) ≠ 0 := by
    intro h0
    rw [h0] at habs
    simp at habs
  have hcoslat : Real.cos (atan2 p.z r) = r := by
    unfold atan2
    rw [Complex.cos_arg hd, habs]
    simp
  have hsinlat : Real.sin (atan2 p.z r) = p.z := by
    unfold atan2
    rw [Complex.sin_arg, habs]
    simp
  have hcoslon : Real.cos ((angles_from_sphere p).1) =
      Real.cos (atan2 p.y p.x) := by
    simp only [angles_from_sphere]
    split_ifs with h
    · exact Real.cos_add_two_pi _
    · rfl
  have hsinlon : Real.sin ((angles_from_sphere p).1) =
      Real.sin (atan2 p.y p.x) := by
    simp only [angles_from_sphere]
    split_ifs with h
    · exact Real.sin_add_two_pi _
    · rfl
  have hlat : (angles_from_sphere p).2 = atan2 p.z r := rfl
  by_cases hxy : p.x = 0 ∧ p.y = 0
  · have hr0 : r = 0 := by
      rw [hrdef, hxy.1, hxy.2]
      simp
    ext
    · show Real.cos ((angles_from_sphere p).2) *
        Real.cos ((angles_from_sphere p).1) = p.x
      rw [hlat, hcoslat, hr0, hxy.1, zero_mul]
    · show Real.cos ((angles_from_sphere p).2) *
        Real.sin ((angles_from_sphere p).1) = p.y
      rw [hlat, hcoslat, hr0, hxy.2, zero_mul]
    · show Real.sin ((angles_from_sphere p).2) = p.z
      rw [hlat, hsinlat]
  · have hc : (⟨p.x, p.y⟩ : ℂ) ≠ 0 := by
      intro h0
      rw [Complex.ext_iff] at h0
      exact hxy ⟨h0.1, h0.2⟩
    have habsc : Complex.abs ⟨p.x, p.y⟩ = r := by
      rw [Complex.abs_apply, Complex.normSq_mk]
    have hrne : r ≠ 0 := by
      rw [← habsc]
      simpa using hc
    have hcos0 : Real.cos (atan2 p.y p.x) = p.x / r := by
      unfold atan2
      rw [Complex.cos_arg hc, habsc]
    have hsin0 : Real.sin (atan2 p.y p.x) = p.y / r := by
      unfold atan2
      rw [Complex.sin_arg, habsc]
    ext
    · show Real.cos ((angles_from_sphere p).2) *
        Real.cos ((angles_from_sphere p).1) = p.x
      rw [hlat, hcoslat, hcoslon, hcos0]
      field_simp
    · show Real.cos ((angles_from_sphere p).2) *
        Real.sin ((angles_from_sphere p).1) = p.y
      rw [hlat, hcoslat, hsinlon, hsin0]
      field_simp
    · show Real.sin ((angles_from_sphere p).2) = p.z
      rw [hlat, hsinlat]

/-- **C7 (counterexample to the claim as stated).**  At width `x_size = 2`
the divisor `y_size - 1` is zero (`y_size = x_size/2 = 1`), and the
pixel → angle → pixel round trip does not return the input point (in Python
the division by `float(0)` raises `ZeroDivisionError`). -/
theorem claim_C7_counterexample :
    pixel_coords_from_angles (angles_from_pixel_coords (0, 1) 2) 2 ≠
      (0, 1) := by
  intro h
  have h2 := congrArg Prod.snd h
  simp only [angles_from_pixel_coords, pixel_coords_from_angles] at h2
  norm_num at h2

/-- **C7 (amended).**  For widths with `x_size ≠ 0` and `x_size/2 ≠ 1`
(nonzero divisors), the pixel ↔ angle maps are exact inverses for every
point; and the sphere → angles → sphere round trip is the identity on the
unit sphere. -/
theorem claim_C7_coordinate_roundtrips (x_size : ℤ) (pt : ℝ × ℝ) (p : Vec3)
    (hx : (x_size : ℝ) ≠ 0) (hy : ((x_size / 2 - 1 : ℤ) : ℝ) ≠ 0)
    (hp : p.x ^ 2 + p.y ^ 2 + p.z ^ 2 = 1) :
    pixel_coords_from_angles (angles_from_pixel_coords pt x_size) x_size =
      pt ∧
    sphere_from_angles (angles_from_sphere p) = p := by
  refine ⟨?_, sphere_angles_roundtrip p hp⟩
  have hpi := Real.pi_ne_zero
  simp only [angles_from_pixel_coords, pixel_coords_from_angles]
  rw [Prod.ext_iff]
  constructor
  · simp only
    field_simp
    ring
  · simp only
    push_cast at hy ⊢
    field_simp
    ring

/-- Witness for C7 (amended) at width 4, `pt = (3, 7)`, `p = (1,0,0)`. -/
theorem claim_C7_witness :
    pixel_coords_from_angles (angles_from_pixel_coords (3, 7) 4) 4 =
      (3, 7) ∧
    sphere_from_angles (angles_from_sphere ⟨1, 0, 0⟩) = ⟨1, 0, 0⟩ :=
  claim_C7_coordinate_roundtrips 4 (3, 7) ⟨1, 0, 0⟩ (by norm_num)
    (by norm_num) (by norm_num)

/-! ## Sphere ↔ CP¹ -/

/-- `CP1_from_sphere(point)`: branch on the sign of `z` to keep both
homogeneous components bounded. -/
def CP1_from_sphere (p : Vec3) : ℂ × ℂ :=
  if p.z < 0 then (⟨p.x, p.y⟩, ⟨1 - p.z, 0⟩)
  else (⟨1 + p.z, 0⟩, ⟨p.x, -p.y⟩)

/-- `sphere_from_CP1(point)`: divide by the homogeneous component of larger
magnitude (conjugating in the second branch). -/
def sphere_from_CP1 (pt : ℂ × ℂ) : Vec3 :=
  if Complex.abs pt.2 > Complex.abs pt.1 then
    let w := pt.1 / pt.2
    let denom := 1 + w.re * w.re + w.im * w.im
    ⟨2 * w.re / denom, 2 * w.im / denom, (denom - 2) / denom⟩
  else
    let w := (starRingEnd ℂ) (pt.2 / pt.1)
    let denom := 1 + w.re * w.re + w.im * w.im
    ⟨2 * w.re / denom, 2 * w.im / denom, (2 - denom) / denom⟩

/-- Magnitude comparison of complex numbers reduces to `normSq`. -/
lemma abs_lt_abs_iff_normSq {w q : ℂ} :
    Complex.abs w < Complex.abs q ↔ Complex.normSq w < Complex.normSq q := by
  rw [Complex.abs_apply, Complex.abs_apply]
  exact Real.sqrt_lt_sqrt_iff (Complex.normSq_nonneg w)

/-- The sphere → CP¹ → sphere round trip, for unit vectors. -/
lemma sphere_CP1_roundtrip (p : Vec3)
    (hp : p.x ^ 2 + p.y ^ 2 + p.z ^ 2 = 1) :
    sphere_from_CP1 (CP1_from_sphere p) = p := by
  by_cases hz : p.z < 0
  · have hu : (1 : ℝ) - p.z ≠ 0 := by linarith
    have hbr : Complex.abs (⟨1 - p.z, 0⟩ : ℂ) > Complex.abs ⟨p.x, p.y⟩ := by
      rw [gt_iff_lt, abs_lt_abs_iff_normSq, Complex.normSq_mk,
        Complex.normSq_mk]
      nlinarith
    have hwre : ((⟨p.x, p.y⟩ : ℂ) / ⟨1 - p.z, 0⟩).re = p.x / (1 - p.z) := by
      rw [Complex.div_re, Complex.normSq_mk]
      simp only
      field_simp
      ring
    have hwim : ((⟨p.x, p.y⟩ : ℂ) / ⟨1 - p.z, 0⟩).im = p.y / (1 - p.z) := by
      rw [Complex.div_im, Complex.normSq_mk]
      simp only
      field_simp
      ring
    have hden : 1 + p.x / (1 - p.z) * (p.x / (1 - p.z)) +
        p.y / (1 - p.z) * (p.y / (1 - p.z)) = 2 / (1 - p.z) := by
      field_simp
      nlinarith
    unfold CP1_from_sphere sphere_from_CP1
    rw [if_pos hz]
    simp only
    rw [if_pos hbr]
    simp only [hwre, hwim, hden]
    ext <;> simp only <;> field_simp <;> nlinarith
  · push_neg at hz
    have hu : (1 : ℝ) + p.z ≠ 0 := by linarith
    have hbr : ¬(Complex.abs (⟨p.x, -p.y⟩ : ℂ) >
        Complex.abs ⟨1 + p.z, 0⟩) := by
      rw [gt_iff_lt, abs_lt_abs_iff_normSq, Complex.normSq_mk,
        Complex.normSq_mk]
      intro h
      nlinarith
    have hwre : ((starRingEnd ℂ) ((⟨p.x, -p.y⟩ : ℂ) / ⟨1 + p.z, 0⟩)).re =
        p.x / (1 + p.z) := by
      rw [Complex.conj_re, Complex.div_re, Complex.normSq_mk]
      simp only
      field_simp
      ring
    have hwim : ((starRingEnd ℂ) ((⟨p.x, -p.y⟩ : ℂ) / ⟨1 + p.z, 0⟩)).im =
        p.y / (1 + p.z) := by
      rw [Complex.conj_im, Complex.div_im, Complex.normSq_mk]
      simp only
      field_simp
      ring
    have hden : 1 + p.x / (1 + p.z) * (p.x / (1 + p.z)) +
        p.y / (1 + p.z) * (p.y / (1 + p.z)) = 2 / (1 + p.z) := by
      field_simp
      nlinarith
    unfold CP1_from_sphere sphere_from_CP1
    rw [if_neg (not_lt.mpr hz)]
    simp only
    rw [if_neg hbr]
    simp only [hwre, hwim, hden]
    ext <;> simp only <;> field_simp <;> nlinarith

/-- `sphere_from_CP1` only depends on the projective class: scaling both
homogeneous coordinates by a nonzero complex scalar changes nothing. -/
lemma sphere_from_CP1_smul (s : ℂ) (hs : s ≠ 0) (u : ℂ × ℂ) :
    sphere_from_CP1 (s * u.1, s * u.2) = sphere_from_CP1 u := by
  have h1 : Complex.abs (s * u.2) > Complex.abs (s * u.1) ↔
      Complex.abs u.2 > Complex.abs u.1 := by
    rw [gt_iff_lt, gt_iff_lt, map_mul, map_mul]
    exact mul_lt_mul_left (Complex.abs.pos hs)
  have h2 : s * u.1 / (s * u.2) = u.1 / u.2 := mul_div_mul_left _ _ hs
  have h3 : s * u.2 / (s * u.1) = u.2 / u.1 := mul_div_mul_left _ _ hs
  unfold sphere_from_CP1
  split_ifs with ha hb hb
  · simp only [h2]
  · exact absurd (h1.mp ha) hb
  · exact absurd (h1.mpr hb) ha
  · simp only [h3]

/-- **C4.**  For every point on the unit sphere (in particular away from any
branch boundary) the sphere → CP¹ → sphere round trip is the identity in
exact real arithmetic. -/
theorem claim_C4_CP1_roundtrip (p : Vec3)
    (hp : p.x ^ 2 + p.y ^ 2 + p.z ^ 2 = 1) :
    sphere_from_CP1 (CP1_from_sphere p) = p :=
  sphere_CP1_roundtrip p hp

/-- Witness for C4 at the north pole `(0,0,1)`. -/
theorem claim_C4_witness :
    sphere_from_CP1 (CP1_from_sphere ⟨0, 0, 1⟩) = ⟨0, 0, 1⟩ :=
  claim_C4_CP1_roundtrip ⟨0, 0, 1⟩ (by norm_num)

/-! ## SL(2,C) matrices from point correspondences

The 2×2 complex matrix primitives live in the external
`vectors_and_matrices` module.  Modelled from the spec: exact inversion,
multiplication and matrix-vector application, with inversion signalling
failure on a singular matrix. -/

/-- A 2×2 complex matrix `[[a,b],[c,d]]`. -/
@[ext]
structure Mat2 where
  a : ℂ
  b : ℂ
  c : ℂ
  d : ℂ

/-- Modelled from the spec: 2×2 matrix applied to a CP¹ vector. -/
def matrix_mult_vector (m : Mat2) (v : ℂ × ℂ) : ℂ × ℂ :=
  (m.a * v.1 + m.b * v.2, m.c * v.1 + m.d * v.2)

/-- Modelled from the spec: 2×2 matrix product. -/
def matrix_mult (m n : Mat2) : Mat2 :=
  ⟨m.a * n.a + m.b * n.c, m.a * n.b + m.b * n.d,
    m.c * n.a + m.d * n.c, m.c * n.b + m.d * n.d⟩

/-- Determinant of a 2×2 complex matrix. -/
def det2 (m : Mat2) : ℂ := m.a * m.d - m.b * m.c

/-- Modelled from the spec: exact 2×2 complex inversion, which must signal
failure (here `none`) when the matrix is singular. -/
def matrix2_inv (m : Mat2) : Option Mat2 :=
  if det2 m = 0 then none
  else some ⟨m.d / det2 m, -m.b / det2 m, -m.c / det2 m, m.a / det2 m⟩

/-- `inf_zero_one_to_triple(p,q,r)`: the matrix sending `∞ = [1,0]`,
`0 = [0,1]`, `1 = [1,1]` to `p`, `q`, `r`: invert the matrix with columns
`p` and `q`, apply it to `r` to obtain `(mu, lam)`, and scale the columns. -/
def inf_zero_one_to_triple (p q r : ℂ × ℂ) : Option Mat2 :=
  (matrix2_inv ⟨p.1, q.1, p.2, q.2⟩).map fun Minv =>
    let mu := Minv.a * r.1 + Minv.b * r.2
    let lam := Minv.c * r.1 + Minv.d * r.2
    ⟨mu * p.1, lam * q.1, mu * p.2, lam * q.2⟩

/-- `two_triples_to_SL(a1,b1,c1,a2,b2,c2)`: compose the canonical-triple
matrix of the target triple with the inverse of that of the source triple. -/
def two_triples_to_SL (a1 b1 c1 a2 b2 c2 : ℂ × ℂ) : Option Mat2 :=
  match inf_zero_one_to_triple a2 b2 c2, inf_zero_one_to_triple a1 b1 c1 with
  | some n2, some n1 => (matrix2_inv n1).map fun n1inv => matrix_mult n2 n1inv
  | _, _ => none

/-- Projective equality of homogeneous coordinate pairs. -/
def projEq (u v : ℂ × ℂ) : Prop := ∃ s : ℂ, s ≠ 0 ∧ v = (s * u.1, s * u.2)

/-- Determinant of the matrix with columns `u`, `v`; zero exactly when the
columns are proportional. -/
def detPair (u v : ℂ × ℂ) : ℂ := u.1 * v.2 - u.2 * v.1

lemma detPair_eq_zero_iff {u v : ℂ × ℂ} (hu : u ≠ 0) (hv : v ≠ 0) :
    detPair u v = 0 ↔ projEq u v := by
  constructor
  · intro h
    unfold detPair at h
    by_cases h1 : u.1 = 0
    · have hu2 : u.2 ≠ 0 := by
        intro h2
        exact hu (Prod.ext_iff.mpr ⟨h1, h2⟩)
      have hv1 : v.1 = 0 := by
        have : u.2 * v.1 = 0 := by rw [h1] at h; linear_combination -h
        exact (mul_eq_zero.mp this).resolve_left hu2
      have hv2 : v.2 ≠ 0 := by
        intro h2
        exact hv (Prod.ext_iff.mpr ⟨hv1, h2⟩)
      refine ⟨v.2 / u.2, div_ne_zero hv2 hu2, Prod.ext_iff.mpr ⟨?_, ?_⟩⟩
      · rw [hv1, h1, mul_zero]
      · field_simp
    · have hv1 : v.1 ≠ 0 := by
        intro h2
        have hv2 : v.2 = 0 := by
          have : u.1 * v.2 = 0 := by rw [h2] at h; linear_combination h
          exact (mul_eq_zero.mp this).resolve_left h1
        exact hv (Prod.ext_iff.mpr ⟨h2, hv2⟩)
      refine ⟨v.1 / u.1, div_ne_zero hv1 h1, Prod.ext_iff.mpr ⟨?_, ?_⟩⟩
      · field_simp
      · field_simp
        linear_combination h
  · rintro ⟨s, hs, rfl⟩
    unfold detPair
    simp only
    ring

/-- The `mu` coefficient computed inside `inf_zero_one_to_triple`. -/
def izotMu (p q r : ℂ × ℂ) : ℂ :=
  q.2 / detPair p q * r.1 + -q.1 / detPair p q * r.2

/-- The `lam` coefficient computed inside `inf_zero_one_to_triple`. -/
def izotLam (p q r : ℂ × ℂ) : ℂ :=
  -p.2 / detPair p q * r.1 + p.1 / detPair p q * r.2

/-- The matrix produced by `inf_zero_one_to_triple` in the non-degenerate
case: columns `mu·p` and `lam·q`. -/
def izotMat (p q r : ℂ × ℂ) : Mat2 :=
  ⟨izotMu p q r * p.1, izotLam p q r * q.1,
    izotMu p q r * p.2, izotLam p q r * q.2⟩

lemma izot_eq {p q : ℂ × ℂ} (r : ℂ × ℂ) (h : detPair p q ≠ 0) :
    inf_zero_one_to_triple p q r = some (izotMat p q r) := by
  have hdet : det2 ⟨p.1, q.1, p.2, q.2⟩ = detPair p q := by
    unfold det2 detPair
    ring
  unfold inf_zero_one_to_triple matrix2_inv
  rw [hdet, if_neg h]
  rfl

lemma izotMu_eq (p q r : ℂ × ℂ) :
    izotMu p q r = -detPair q r / detPair p q := by
  unfold izotMu detPair
  ring

lemma izotLam_eq (p q r : ℂ × ℂ) :
    izotLam p q r = detPair p r / detPair p q := by
  unfold izotLam detPair
  ring

lemma izotMat_e1 (p q r : ℂ × ℂ) :
    matrix_mult_vector (izotMat p q r) (1, 0) =
      (izotMu p q r * p.1, izotMu p q r * p.2) := by
  unfold matrix_mult_vector izotMat
  rw [Prod.ext_iff]
  constructor <;> (simp only; ring)

lemma izotMat_e2 (p q r : ℂ × ℂ) :
    matrix_mult_vector (izotMat p q r) (0, 1) =
      (izotLam p q r * q.1, izotLam p q r * q.2) := by
  unfold matrix_mult_vector izotMat
  rw [Prod.ext_iff]
  constructor <;> (simp only; ring)

lemma izotMat_e11 {p q : ℂ × ℂ} (r : ℂ × ℂ) (h : detPair p q ≠ 0) :
    matrix_mult_vector (izotMat p q r) (1, 1) = r := by
  unfold matrix_mult_vector izotMat izotMu izotLam
  unfold detPair at h ⊢
  rw [Prod.ext_iff]
  constructor <;> (simp only; field_simp; ring)

lemma izotMat_det (p q r : ℂ × ℂ) :
    det2 (izotMat p q r) = izotMu p q r * izotLam p q r * detPair p q := by
  unfold det2 izotMat detPair
  ring

/-- A nonsingular matrix inverts to an explicit adjugate-over-determinant
matrix whose action undoes it exactly. -/
lemma matrix2_inv_eq {m : Mat2} (h : det2 m ≠ 0) :
    matrix2_inv m = some
      ⟨m.d / det2 m, -m.b / det2 m, -m.c / det2 m, m.a / det2 m⟩ := by
  unfold matrix2_inv
  rw [if_neg h]

lemma matrix2_inv_action {m : Mat2} (h : det2 m ≠ 0) (v : ℂ × ℂ) :
    matrix_mult_vector
      ⟨m.d / det2 m, -m.b / det2 m, -m.c / det2 m, m.a / det2 m⟩
      (matrix_mult_vector m v) = v := by
  unfold matrix_mult_vector
  unfold det2 at h ⊢
  rw [Prod.ext_iff]
  constructor <;> (simp only; field_simp; ring)

lemma mmv_mult (m n : Mat2) (v : ℂ × ℂ) :
    matrix_mult_vector (matrix_mult m n) v =
      matrix_mult_vector m (matrix_mult_vector n v) := by
  unfold matrix_mult matrix_mult_vector
  rw [Prod.ext_iff]
  constructor <;> (simp only; ring)

lemma mmv_smul (m : Mat2) (s : ℂ) (v : ℂ × ℂ) :
    matrix_mult_vector m (s * v.1, s * v.2) =
      (s * (matrix_mult_vector m v).1, s * (matrix_mult_vector m v).2) := by
  unfold matrix_mult_vector
  rw [Prod.ext_iff]
  constructor <;> (simp only; ring)

/-- The fundamental mapping property: for nonzero, pairwise projectively
distinct triples, `two_triples_to_SL` succeeds and its matrix carries the
first triple to the second, projectively. -/
lemma two_triples_maps {a1 b1 c1 a2 b2 c2 : ℂ × ℂ}
    (ha1 : a1 ≠ 0) (hb1 : b1 ≠ 0) (hc1 : c1 ≠ 0)
    (ha2 : a2 ≠ 0) (hb2 : b2 ≠ 0) (hc2 : c2 ≠ 0)
    (hab1 : ¬projEq a1 b1) (hac1 : ¬projEq a1 c1) (hbc1 : ¬projEq b1 c1)
    (hab2 : ¬projEq a2 b2) (hac2 : ¬projEq a2 c2) (hbc2 : ¬projEq b2 c2) :
    ∃ M, two_triples_to_SL a1 b1 c1 a2 b2 c2 = some M ∧
      projEq (matrix_mult_vector M a1) a2 ∧
      projEq (matrix_mult_vector M b1) b2 ∧
      projEq (matrix_mult_vector M c1) c2 := by
  have hd1 : detPair a1 b1 ≠ 0 :=
    fun h => hab1 ((detPair_eq_zero_iff ha1 hb1).mp h)
  have hd2 : detPair a2 b2 ≠ 0 :=
    fun h => hab2 ((detPair_eq_zero_iff ha2 hb2).mp h)
  have hqc1 : detPair b1 c1 ≠ 0 :=
    fun h => hbc1 ((detPair_eq_zero_iff hb1 hc1).mp h)
  have hpc1 : detPair a1 c1 ≠ 0 :=
    fun h => hac1 ((detPair_eq_zero_iff ha1 hc1).mp h)
  have hmu1 : izotMu a1 b1 c1 ≠ 0 := by
    rw [izotMu_eq]
    exact div_ne_zero (neg_ne_zero.mpr hqc1) hd1
  have hlam1 : izotLam a1 b1 c1 ≠ 0 := by
    rw [izotLam_eq]
    exact div_ne_zero hpc1 hd1
  have hqc2 : detPair b2 c2 ≠ 0 :=
    fun h => hbc2 ((detPair_eq_zero_iff hb2 hc2).mp h)
  have hpc2 : detPair a2 c2 ≠ 0 :=
    fun h => hac2 ((detPair_eq_zero_iff ha2 hc2).mp h)
  have hmu2 : izotMu a2 b2 c2 ≠ 0 := by
    rw [izotMu_eq]
    exact div_ne_zero (neg_ne_zero.mpr hqc2) hd2
  have hlam2 : izotLam a2 b2 c2 ≠ 0 := by
    rw [izotLam_eq]
    exact div_ne_zero hpc2 hd2
  set N1 := izotMat a1 b1 c1 with hN1def
  set N2 := izotMat a2 b2 c2 with hN2def
  have hdet1 : det2 N1 ≠ 0 := by
    rw [hN1def, izotMat_det]
    exact mul_ne_zero (mul_ne_zero hmu1 hlam1) hd1
  set N1inv : Mat2 :=
    ⟨N1.d / det2 N1, -N1.b / det2 N1, -N1.c / det2 N1, N1.a / det2 N1⟩
    with hN1invdef
  have hcomp : two_triples_to_SL a1 b1 c1 a2 b2 c2 =
      some (matrix_mult N2 N1inv) := by
    simp only [two_triples_to_SL, izot_eq c2 hd2, izot_eq c1 hd1,
      ← hN1def, ← hN2def, matrix2_inv_eq hdet1, Option.map_some']
  have haction : ∀ v, matrix_mult_vector N1inv (matrix_mult_vector N1 v) = v :=
    fun v => matrix2_inv_action hdet1 v
  refine ⟨matrix_mult N2 N1inv, hcomp, ?_, ?_, ?_⟩
  · -- a1 ↦ a2
    have hstep : matrix_mult_vector N1inv
        (izotMu a1 b1 c1 * a1.1, izotMu a1 b1 c1 * a1.2) = (1, 0) := by
      rw [← izotMat_e1 a1 b1 c1, ← hN1def]
      exact haction (1, 0)
    rw [mmv_smul N1inv _ a1, Prod.mk.injEq] at hstep
    have hX2 : (matrix_mult_vector N1inv a1).2 = 0 :=
      (mul_eq_zero.mp hstep.2).resolve_left hmu1
    have hX1 : (matrix_mult_vector N1inv a1).1 ≠ 0 := by
      intro h0
      rw [h0, mul_zero] at hstep
      exact one_ne_zero hstep.1.symm
    have hXeq : matrix_mult_vector N1inv a1 =
        ((matrix_mult_vector N1inv a1).1 * ((1 : ℂ), (0 : ℂ)).1,
          (matrix_mult_vector N1inv a1).1 * ((1 : ℂ), (0 : ℂ)).2) := by
      rw [Prod.ext_iff]
      exact ⟨(mul_one _).symm, by rw [mul_zero, hX2]⟩
    have hMa : matrix_mult_vector (matrix_mult N2 N1inv) a1 =
        ((matrix_mult_vector N1inv a1).1 * (izotMu a2 b2 c2 * a2.1),
          (matrix_mult_vector N1inv a1).1 * (izotMu a2 b2 c2 * a2.2)) := by
      rw [mmv_mult, hXeq, mmv_smul N2 _ ((1 : ℂ), (0 : ℂ))]
      rw [show matrix_mult_vector N2 ((1 : ℂ), (0 : ℂ)) =
        (izotMu a2 b2 c2 * a2.1, izotMu a2 b2 c2 * a2.2) from
        izotMat_e1 a2 b2 c2]
      simp
    refine ⟨((matrix_mult_vector N1inv a1).1 * izotMu a2 b2 c2)⁻¹,
      inv_ne_zero (mul_ne_zero hX1 hmu2), ?_⟩
    rw [hMa, Prod.ext_iff]
    constructor <;> (simp only; field_simp; ring)
  · -- b1 ↦ b2
    have hstep : matrix_mult_vector N1inv
        (izotLam a1 b1 c1 * b1.1, izotLam a1 b1 c1 * b1.2) = (0, 1) := by
      rw [← izotMat_e2 a1 b1 c1, ← hN1def]
      exact haction (0, 1)
    rw [mmv_smul N1inv _ b1, Prod.mk.injEq] at hstep
    have hX1 : (matrix_mult_vector N1inv b1).1 = 0 :=
      (mul_eq_zero.mp hstep.1).resolve_left hlam1
    have hX2 : (matrix_mult_vector N1inv b1).2 ≠ 0 := by
      intro h0
      rw [h0, mul_zero] at hstep
      exact one_ne_zero hstep.2.symm
    have hXeq : matrix_mult_vector N1inv b1 =
        ((matrix_mult_vector N1inv b1).2 * ((0 : ℂ), (1 : ℂ)).1,
          (matrix_mult_vector N1inv b1).2 * ((0 : ℂ), (1 : ℂ)).2) := by
      rw [Prod.ext_iff]
      exact ⟨by rw [mul_zero, hX1], (mul_one _).symm⟩
    have hMb : matrix_mult_vector (matrix_mult N2 N1inv) b1 =
        ((matrix_mult_vector N1inv b1).2 * (izotLam a2 b2 c2 * b2.1),
          (matrix_mult_vector N1inv b1).2 * (izotLam a2 b2 c2 * b2.2)) := by
      rw [mmv_mult, hXeq, mmv_smul N2 _ ((0 : ℂ), (1 : ℂ))]
      rw [show matrix_mult_vector N2 ((0 : ℂ), (1 : ℂ)) =
        (izotLam a2 b2 c2 * b2.1, izotLam a2 b2 c2 * b2.2) from
        izotMat_e2 a2 b2 c2]
      simp
    refine ⟨((matrix_mult_vector N1inv b1).2 * izotLam a2 b2 c2)⁻¹,
      inv_ne_zero (mul_ne_zero hX2 hlam2), ?_⟩
    rw [hMb, Prod.ext_iff]
    constructor <;> (simp only; field_simp; ring)
  · -- c1 ↦ c2
    have hc11 : matrix_mult_vector N1inv c1 = (1, 1) := by
      rw [show c1 = matrix_mult_vector N1 (1, 1) from
        (izotMat_e11 c1 hd1).symm]
      exact haction (1, 1)
    have hMc : matrix_mult_vector (matrix_mult N2 N1inv) c1 = c2 := by
      rw [mmv_mult, hc11, hN2def, izotMat_e11 c2 hd2]
    exact ⟨1, one_ne_zero, by
      rw [hMc, Prod.ext_iff]
      exact ⟨(one_mul _).symm, (one_mul _).symm⟩⟩

/-- **C1.**  For pairwise projectively distinct CP¹ triples (of legitimate,
not-both-zero points), `two_triples_to_SL` returns a matrix sending
`a1, b1, c1` to `a2, b2, c2` up to nonzero scalar. -/
theorem claim_C1_two_triples_correct {a1 b1 c1 a2 b2 c2 : ℂ × ℂ}
    (ha1 : a1 ≠ 0) (hb1 : b1 ≠ 0) (hc1 : c1 ≠ 0)
    (ha2 : a2 ≠ 0) (hb2 : b2 ≠ 0) (hc2 : c2 ≠ 0)
    (hab1 : ¬projEq a1 b1) (hac1 : ¬projEq a1 c1) (hbc1 : ¬projEq b1 c1)
    (hab2 : ¬projEq a2 b2) (hac2 : ¬projEq a2 c2) (hbc2 : ¬projEq b2 c2) :
    ∃ M, two_triples_to_SL a1 b1 c1 a2 b2 c2 = some M ∧
      projEq (matrix_mult_vector M a1) a2 ∧
      projEq (matrix_mult_vector M b1) b2 ∧
      projEq (matrix_mult_vector M c1) c2 :=
  two_triples_maps ha1 hb1 hc1 ha2 hb2 hc2 hab1 hac1 hbc1 hab2 hac2 hbc2

/-- Witness for C1: the canonical triple `∞, 0, 1` to `0, ∞, 1`. -/
theorem claim_C1_witness :
    ∃ M, two_triples_to_SL ((1 : ℂ), (0 : ℂ)) ((0 : ℂ), (1 : ℂ))
        ((1 : ℂ), (1 : ℂ)) ((0 : ℂ), (1 : ℂ)) ((1 : ℂ), (0 : ℂ))
        ((1 : ℂ), (1 : ℂ)) = some M ∧
      projEq (matrix_mult_vector M ((1 : ℂ), (0 : ℂ))) ((0 : ℂ), (1 : ℂ)) ∧
      projEq (matrix_mult_vector M ((0 : ℂ), (1 : ℂ))) ((1 : ℂ), (0 : ℂ)) ∧
      projEq (matrix_mult_vector M ((1 : ℂ), (1 : ℂ))) ((1 : ℂ), (1 : ℂ)) :=
  claim_C1_two_triples_correct
    (by simp [Prod.ext_iff]) (by simp [Prod.ext_iff]) (by simp [Prod.ext_iff])
    (by simp [Prod.ext_iff]) (by simp [Prod.ext_iff]) (by simp [Prod.ext_iff])
    (by rintro ⟨s, hs, h⟩; simp [Prod.ext_iff] at h)
    (by rintro ⟨s, hs, h⟩; simp [Prod.ext_iff] at h)
    (by rintro ⟨s, hs, h⟩; simp [Prod.ext_iff] at h)
    (by rintro ⟨s, hs, h⟩; simp [Prod.ext_iff] at h)
    (by rintro ⟨s, hs, h⟩; simp [Prod.ext_iff] at h)
    (by rintro ⟨s, hs, h⟩; simp [Prod.ext_iff] at h)

/-! ## C5 : when does `inf_zero_one_to_triple` fail? -/

/-- **C5 (counterexample to the claim as stated).**  With `p = [1,0]`,
`q = [0,1]` and `r = q = [0,1]`, two of the three constraint points are
projectively equal, yet `inf_zero_one_to_triple` succeeds (no singular
matrix is inverted): only coincidence of `p` and `q` makes it fail. -/
theorem claim_C5_counterexample :
    (inf_zero_one_to_triple ((1 : ℂ), (0 : ℂ)) ((0 : ℂ), (1 : ℂ))
        ((0 : ℂ), (1 : ℂ))).isSome = true ∧
      projEq ((0 : ℂ), (1 : ℂ)) ((0 : ℂ), (1 : ℂ)) := by
  constructor
  · rw [izot_eq ((0 : ℂ), (1 : ℂ)) (by norm_num [detPair])]
    rfl
  · exact ⟨1, one_ne_zero, by norm_num⟩

/-- **C5 (amended).**  `inf_zero_one_to_triple p q r` fails (inverts a
singular matrix) exactly when `p` and `q` — the two points used as matrix
columns, i.e. the images of `∞` and `0` — are projectively equal; for
pairwise projectively distinct points it succeeds. -/
theorem claim_C5_izot_failure_iff {p q : ℂ × ℂ} (r : ℂ × ℂ)
    (hp : p ≠ 0) (hq : q ≠ 0) :
    (inf_zero_one_to_triple p q r = none ↔ projEq p q) ∧
    (¬projEq p q → (inf_zero_one_to_triple p q r).isSome = true) := by
  have hdet : det2 ⟨p.1, q.1, p.2, q.2⟩ = detPair p q := by
    unfold det2 detPair
    ring
  have hiff : inf_zero_one_to_triple p q r = none ↔ projEq p q := by
    by_cases h : detPair p q = 0
    · unfold inf_zero_one_to_triple matrix2_inv
      rw [hdet, if_pos h]
      simp only [Option.map_none']
      exact iff_of_true trivial ((detPair_eq_zero_iff hp hq).mp h)
    · rw [izot_eq r h]
      exact iff_of_false (by simp)
        (fun hpe => h ((detPair_eq_zero_iff hp hq).mpr hpe))
  refine ⟨hiff, fun hne => ?_⟩
  exact Option.ne_none_iff_isSome.mp (fun h0 => hne (hiff.mp h0))

/-- Witness for C5 (amended) at `p = [1,0]`, `q = [0,1]`, `r = [1,1]`. -/
theorem claim_C5_witness :
    ((inf_zero_one_to_triple ((1 : ℂ), (0 : ℂ)) ((0 : ℂ), (1 : ℂ))
        ((1 : ℂ), (1 : ℂ)) = none ↔
      projEq ((1 : ℂ), (0 : ℂ)) ((0 : ℂ), (1 : ℂ))) ∧
    (¬projEq ((1 : ℂ), (0 : ℂ)) ((0 : ℂ), (1 : ℂ)) →
      (inf_zero_one_to_triple ((1 : ℂ), (0 : ℂ)) ((0 : ℂ), (1 : ℂ))
        ((1 : ℂ), (1 : ℂ))).isSome = true)) :=
  claim_C5_izot_failure_iff ((1 : ℂ), (1 : ℂ))
    (by simp [Prod.ext_iff]) (by simp [Prod.ext_iff])

/-! ## Rotations sending a sphere point to a sphere point -/

/-- Modelled from the spec: dot product of 3-vectors (external
`vectors_and_matrices` primitive). -/
def dot (u v : Vec3) : ℝ := u.x * v.x + u.y * v.y + u.z * v.z

/-- Modelled from the spec: cross product of 3-vectors. -/
def cross (u v : Vec3) : Vec3 :=
  ⟨u.y * v.z - u.z * v.y, u.z * v.x - u.x * v.z, u.x * v.y - u.y * v.x⟩

/-- Euclidean norm of a 3-vector. -/
def norm3 (u : Vec3) : ℝ := Real.sqrt (dot u u)

/-- Modelled from the spec: normalisation of a 3-vector. -/
def normalised (u : Vec3) : Vec3 :=
  ⟨u.x / norm3 u, u.y / norm3 u, u.z / norm3 u⟩

instance : Neg Vec3 := ⟨fun v => ⟨-v.x, -v.y, -v.z⟩⟩

@[simp]
lemma Vec3_neg_x (v : Vec3) : (-v).x = -v.x := rfl

@[simp]
lemma Vec3_neg_y (v : Vec3) : (-v).y = -v.y := rfl

@[simp]
lemma Vec3_neg_z (v : Vec3) : (-v).z = -v.z := rfl

/-- `get_vector_perp_to_p_and_q(p, q)`: a unit vector perpendicular to both,
with an explicit fallback when `p` and `q` are (nearly) antipodal. -/
def get_vector_perp_to_p_and_q (p q : Vec3) : Vec3 :=
  if |dot p q + 1| < 0.0001 then
    if |dot p ⟨1, 0, 0⟩| > 0.9999 then ⟨0, 1, 0⟩
    else normalised (cross p ⟨1, 0, 0⟩)
  else normalised (cross p q)

/-- `rotate_sphere_points_p_to_q(p, q)`: identity when `p ≈ q`, otherwise the
triple-to-triple matrix `(p, r, -r) → (q, r, -r)` through CP¹. -/
def rotate_sphere_points_p_to_q (p q : Vec3) : Option Mat2 :=
  if |dot p q - 1| < 0.0001 then some ⟨1, 0, 0, 1⟩
  else
    let r := get_vector_perp_to_p_and_q p q
    two_triples_to_SL (CP1_from_sphere p) (CP1_from_sphere r)
      (CP1_from_sphere (-r)) (CP1_from_sphere q) (CP1_from_sphere r)
      (CP1_from_sphere (-r))

lemma dot_self_eq (v : Vec3) : dot v v = v.x ^ 2 + v.y ^ 2 + v.z ^ 2 := by
  unfold dot
  ring

lemma dot_cross_left (u v : Vec3) : dot u (cross u v) = 0 := by
  unfold dot cross
  ring

lemma dot_cross_right (u v : Vec3) : dot v (cross u v) = 0 := by
  unfold dot cross
  ring

lemma cross_dot_self (u v : Vec3) :
    dot (cross u v) (cross u v) = dot u u * dot v v - dot u v * dot u v := by
  unfold dot cross
  ring

lemma dot_neg_left (u v : Vec3) : dot (-u) v = -dot u v := by
  unfold dot
  simp
  ring

lemma dot_neg_right (u v : Vec3) : dot u (-v) = -dot u v := by
  unfold dot
  simp
  ring

lemma dot_normalised_right (u v : Vec3) :
    dot u (normalised v) = dot u v / norm3 v := by
  unfold dot normalised
  ring

lemma normalised_unit {v : Vec3} (h : 0 < dot v v) :
    dot (normalised v) (normalised v) = 1 := by
  have hs : Real.sqrt (dot v v) ^ 2 = dot v v := Real.sq_sqrt h.le
  have hsne : Real.sqrt (dot v v) ≠ 0 :=
    ne_of_gt (Real.sqrt_pos.mpr h)
  unfold normalised norm3 dot
  unfold dot at hs hsne
  field_simp
  nlinarith [hs]

lemma unit_neg {v : Vec3} (h : dot v v = 1) : dot (-v) (-v) = 1 := by
  rw [dot_neg_left, dot_neg_right] at *
  simp [h]

lemma neg_ne_self_of_unit {v : Vec3} (h : dot v v = 1) : v ≠ -v := by
  intro he
  have hx : v.x = 0 := by
    have := congrArg Vec3.x he
    simp at this
    linarith
  have hy : v.y = 0 := by
    have := congrArg Vec3.y he
    simp at this
    linarith
  have hz : v.z = 0 := by
    have := congrArg Vec3.z he
    simp at this
    linarith
  rw [dot_self_eq, hx, hy, hz] at h
  norm_num at h

/-- A unit sphere point maps to a legitimate CP¹ point (not both
components zero). -/
lemma CP1_from_sphere_ne_zero {p : Vec3}
    (hp : p.x ^ 2 + p.y ^ 2 + p.z ^ 2 = 1) : CP1_from_sphere p ≠ 0 := by
  unfold CP1_from_sphere
  split_ifs with h
  · intro h0
    rw [Prod.ext_iff] at h0
    have h2 := h0.2
    rw [Prod.snd_zero, Complex.ext_iff] at h2
    have h3 := h2.1
    simp at h3
    linarith
  · intro h0
    rw [Prod.ext_iff] at h0
    have h2 := h0.1
    rw [Prod.fst_zero, Complex.ext_iff] at h2
    have h3 := h2.1
    simp at h3
    push_neg at h
    linarith

/-- Distinct unit sphere points have projectively distinct CP¹ images. -/
lemma CP1_inj {u v : Vec3} (hu : u.x ^ 2 + u.y ^ 2 + u.z ^ 2 = 1)
    (hv : v.x ^ 2 + v.y ^ 2 + v.z ^ 2 = 1) (hne : u ≠ v) :
    ¬projEq (CP1_from_sphere u) (CP1_from_sphere v) := by
  rintro ⟨s, hs, heq⟩
  apply hne
  have h1 : sphere_from_CP1 (CP1_from_sphere v) =
      sphere_from_CP1 (CP1_from_sphere u) := by
    rw [heq]
    exact sphere_from_CP1_smul s hs _
  rw [sphere_CP1_roundtrip u hu, sphere_CP1_roundtrip v hv] at h1
  exact h1.symm

set_option maxHeartbeats 1600000 in
/-- The auxiliary vector of `rotate_sphere_points_p_to_q` is a unit vector
distinct from `±p` and `±q`, in every branch, whenever `p` and `q` are not
within the identity tolerance. -/
lemma perp_facts {p q : Vec3} (hp : p.x ^ 2 + p.y ^ 2 + p.z ^ 2 = 1)
    (hq : q.x ^ 2 + q.y ^ 2 + q.z ^ 2 = 1)
    (hne : ¬(|dot p q - 1| < 0.0001)) :
    dot (get_vector_perp_to_p_and_q p q) (get_vector_perp_to_p_and_q p q)
      = 1 ∧
    p ≠ get_vector_perp_to_p_and_q p q ∧
    p ≠ -get_vector_perp_to_p_and_q p q ∧
    q ≠ get_vector_perp_to_p_and_q p q ∧
    q ≠ -get_vector_perp_to_p_and_q p q := by
  have hpp : dot p p = 1 := by rw [dot_self_eq]; exact hp
  have hqq : dot q q = 1 := by rw [dot_self_eq]; exact hq
  have hCS : dot p q * dot p q ≤ 1 := by
    have h0 := cross_dot_self p q
    have h1 : 0 ≤ dot (cross p q) (cross p q) := by
      rw [dot_self_eq]
      positivity
    rw [hpp, hqq] at h0
    nlinarith [h0, h1]
  unfold get_vector_perp_to_p_and_q
  split_ifs with hA hB
  · -- near-antipodal, p nearly parallel to (1,0,0): r = (0,1,0)
    have hpq : dot p q < -0.9999 := by
      rcases abs_lt.mp hA with ⟨h1, h2⟩
      linarith
    have hpx : |p.x| > 0.9999 := by
      have h1 : dot p ⟨1, 0, 0⟩ = p.x := by unfold dot; ring
      rwa [h1] at hB
    have hpx2 : p.x ^ 2 > 0.9999 ^ 2 := by
      rcases lt_abs.mp hpx with h | h <;> nlinarith
    refine ⟨by unfold dot; norm_num, ?_, ?_, ?_, ?_⟩
    · intro h
      have hx : p.x = 0 := by
        have := congrArg Vec3.x h
        simpa using this
      rw [hx] at hpx
      norm_num at hpx
    · intro h
      have hx : p.x = 0 := by
        have := congrArg Vec3.x h
        simpa using this
      rw [hx] at hpx
      norm_num at hpx
    · intro h
      have hd : dot p q = p.y := by
        rw [h]
        unfold dot
        norm_num
      nlinarith [hpq, hp, hpx2, hd]
    · intro h
      have hd : dot p q = -p.y := by
        rw [h]
        unfold dot
        norm_num
      nlinarith [hpq, hp, hpx2, hd]
  · -- near-antipodal, generic p: r = normalised (cross p (1,0,0))
    have hpq : dot p q < -0.9999 := by
      rcases abs_lt.mp hA with ⟨h1, h2⟩
      linarith
    push_neg at hB
    have hpx : |p.x| ≤ 0.9999 := by
      have h1 : dot p ⟨1, 0, 0⟩ = p.x := by unfold dot; ring
      rwa [h1] at hB
    have hpx2 : p.x ^ 2 ≤ 0.9999 ^ 2 := by
      rcases abs_le.mp hpx with ⟨h1, h2⟩
      nlinarith
    have hcc : 0 < dot (cross p ⟨1, 0, 0⟩) (cross p ⟨1, 0, 0⟩) := by
      rw [cross_dot_self, hpp]
      have h1 : dot (⟨1, 0, 0⟩ : Vec3) ⟨1, 0, 0⟩ = 1 := by unfold dot; norm_num
      have h2 : dot p ⟨1, 0, 0⟩ = p.x := by unfold dot; ring
      rw [h1, h2]
      nlinarith
    have hrunit := normalised_unit hcc
    have hdpr : dot p (normalised (cross p ⟨1, 0, 0⟩)) = 0 := by
      rw [dot_normalised_right, dot_cross_left, zero_div]
    refine ⟨hrunit, ?_, ?_, ?_, ?_⟩
    · intro h
      have h2 := congrArg (fun v => dot v (normalised (cross p ⟨1, 0, 0⟩))) h
      simp only at h2
      rw [hdpr, hrunit] at h2
      norm_num at h2
    · intro h
      have h2 := congrArg (fun v => dot v (normalised (cross p ⟨1, 0, 0⟩))) h
      simp only at h2
      rw [hdpr, dot_neg_left, hrunit] at h2
      norm_num at h2
    · intro h
      have h2 := congrArg (fun v => dot p v) h
      simp only at h2
      rw [hdpr] at h2
      rw [h2] at hpq
      norm_num at hpq
    · intro h
      have h2 := congrArg (fun v => dot p v) h
      simp only at h2
      rw [dot_neg_right, hdpr] at h2
      rw [h2] at hpq
      norm_num at hpq
  · -- main branch: r = normalised (cross p q)
    have hge := not_lt.mp hne
    have hge2 := not_lt.mp hA
    have hub : dot p q ≤ 0.9999 := by
      rcases le_abs.mp hge with h | h
      · nlinarith [hCS]
      · linarith
    have hlb : -0.9999 ≤ dot p q := by
      rcases le_abs.mp hge2 with h | h
      · linarith
      · nlinarith [hCS]
    have hcc : 0 < dot (cross p q) (cross p q) := by
      rw [cross_dot_self, hpp, hqq]
      have h3 : 0 < (1 - dot p q) * (1 + dot p q) :=
        mul_pos (by linarith) (by linarith)
      nlinarith [h3]
    have hrunit := normalised_unit hcc
    have hdpr : dot p (normalised (cross p q)) = 0 := by
      rw [dot_normalised_right, dot_cross_left, zero_div]
    have hdqr : dot q (normalised (cross p q)) = 0 := by
      rw [dot_normalised_right, dot_cross_right, zero_div]
    refine ⟨hrunit, ?_, ?_, ?_, ?_⟩
    · intro h
      have h2 := congrArg (fun v => dot v (normalised (cross p q))) h
      simp only at h2
      rw [hdpr, hrunit] at h2
      norm_num at h2
    · intro h
      have h2 := congrArg (fun v => dot v (normalised (cross p q))) h
      simp only at h2
      rw [hdpr, dot_neg_left, hrunit] at h2
      norm_num at h2
    · intro h
      have h2 := congrArg (fun v => dot v (normalised (cross p q))) h
      simp only at h2
      rw [hdqr, hrunit] at h2
      norm_num at h2
    · intro h
      have h2 := congrArg (fun v => dot v (normalised (cross p q))) h
      simp only at h2
      rw [hdqr, dot_neg_left, hrunit] at h2
      norm_num at h2

/-- **C3 (counterexample to the claim as stated).**  The identity branch
fires for any `p`, `q` with `|p·q - 1| < 0.0001`, not only for `p = q`: at
`p = (999999/1000001, 2000/1000001, 0)` (a unit vector) and `q = (1,0,0)`
the function returns the identity, which maps `p` to `p ≠ q`. -/
theorem claim_C3_counterexample :
    rotate_sphere_points_p_to_q ⟨999999 / 1000001, 2000 / 1000001, 0⟩
        ⟨1, 0, 0⟩ = some ⟨1, 0, 0, 1⟩ ∧
    sphere_from_CP1 (matrix_mult_vector ⟨1, 0, 0, 1⟩
        (CP1_from_sphere ⟨999999 / 1000001, 2000 / 1000001, 0⟩)) =
      ⟨999999 / 1000001, 2000 / 1000001, 0⟩ ∧
    (⟨999999 / 1000001, 2000 / 1000001, 0⟩ : Vec3) ≠ ⟨1, 0, 0⟩ := by
  have hdot : dot ⟨999999 / 1000001, 2000 / 1000001, 0⟩ ⟨1, 0, 0⟩ =
      999999 / 1000001 := by
    unfold dot
    norm_num
  refine ⟨?_, ?_, ?_⟩
  · unfold rotate_sphere_points_p_to_q
    rw [if_pos (by rw [hdot, abs_lt]; constructor <;> norm_num)]
  · have hid : ∀ u : ℂ × ℂ, matrix_mult_vector ⟨1, 0, 0, 1⟩ u = u := by
      intro u
      unfold matrix_mult_vector
      simp
    rw [hid]
    exact sphere_CP1_roundtrip _ (by norm_num)
  · intro h
    have hx := congrArg Vec3.x h
    norm_num at hx

/-- **C3 (amended).**  For unit vectors `p`, `q`: whenever
`|p·q - 1| < 0.0001` (in particular when `p = q`) the identity matrix is
returned; otherwise — including antipodal and near-antipodal pairs, where
the auxiliary vector falls back to a reference axis and is always a unit
vector distinct from `±p` and `±q` — the returned matrix, applied to
`CP1_from_sphere p` and mapped back through `sphere_from_CP1`, yields `q`
exactly. -/
theorem claim_C3_rotation (p q : Vec3)
    (hp : p.x ^ 2 + p.y ^ 2 + p.z ^ 2 = 1)
    (hq : q.x ^ 2 + q.y ^ 2 + q.z ^ 2 = 1) :
    (|dot p q - 1| < 0.0001 →
      rotate_sphere_points_p_to_q p q = some ⟨1, 0, 0, 1⟩) ∧
    (¬(|dot p q - 1| < 0.0001) →
      ∃ M, rotate_sphere_points_p_to_q p q = some M ∧
        sphere_from_CP1 (matrix_mult_vector M (CP1_from_sphere p)) = q) := by
  constructor
  · intro h
    unfold rotate_sphere_points_p_to_q
    rw [if_pos h]
  · intro hne
    obtain ⟨hrunit, hpr, hprn, hqr, hqrn⟩ := perp_facts hp hq hne
    set r := get_vector_perp_to_p_and_q p q with hrdef
    have hr : r.x ^ 2 + r.y ^ 2 + r.z ^ 2 = 1 := by
      rw [← dot_self_eq]
      exact hrunit
    have hmr : (-r).x ^ 2 + (-r).y ^ 2 + (-r).z ^ 2 = 1 := by
      simp only [Vec3_neg_x, Vec3_neg_y, Vec3_neg_z, neg_sq]
      exact hr
    have hrneg : r ≠ -r := neg_ne_self_of_unit hrunit
    obtain ⟨M, hM, hMa, hMb, hMc⟩ := two_triples_maps
      (CP1_from_sphere_ne_zero hp) (CP1_from_sphere_ne_zero hr)
      (CP1_from_sphere_ne_zero hmr) (CP1_from_sphere_ne_zero hq)
      (CP1_from_sphere_ne_zero hr) (CP1_from_sphere_ne_zero hmr)
      (CP1_inj hp hr hpr) (CP1_inj hp hmr hprn) (CP1_inj hr hmr hrneg)
      (CP1_inj hq hr hqr) (CP1_inj hq hmr hqrn) (CP1_inj hr hmr hrneg)
    refine ⟨M, ?_, ?_⟩
    · unfold rotate_sphere_points_p_to_q
      rw [if_neg hne]
      exact hM
    · obtain ⟨s, hs, heq⟩ := hMa
      calc sphere_from_CP1 (matrix_mult_vector M (CP1_from_sphere p))
          = sphere_from_CP1
              (s * (matrix_mult_vector M (CP1_from_sphere p)).1,
                s * (matrix_mult_vector M (CP1_from_sphere p)).2) :=
            (sphere_from_CP1_smul s hs _).symm
        _ = sphere_from_CP1 (CP1_from_sphere q) := by rw [← heq]
        _ = q := sphere_CP1_roundtrip q hq

/-- Witness for C3 (amended) at `p = (1,0,0)`, `q = (0,1,0)`. -/
theorem claim_C3_witness :
    (|dot ⟨1, 0, 0⟩ ⟨0, 1, 0⟩ - 1| < 0.0001 →
      rotate_sphere_points_p_to_q ⟨1, 0, 0⟩ ⟨0, 1, 0⟩ =
        some ⟨1, 0, 0, 1⟩) ∧
    (¬(|dot ⟨1, 0, 0⟩ ⟨0, 1, 0⟩ - 1| < 0.0001) →
      ∃ M, rotate_sphere_points_p_to_q ⟨1, 0, 0⟩ ⟨0, 1, 0⟩ = some M ∧
        sphere_from_CP1 (matrix_mult_vector M
          (CP1_from_sphere ⟨1, 0, 0⟩)) = ⟨0, 1, 0⟩) :=
  claim_C3_rotation ⟨1, 0, 0⟩ ⟨0, 1, 0⟩ (by norm_num) (by norm_num)

end

end SphereTransforms
